import Mathlib

/-!
Verification development for the graviton interpreter pipeline
(tachyon frontend parser, AST-to-bytecode lowerer, stack VM).

The definitions below are a shallow embedding of the Rust sources:
  - src/tachyon_frontend/src/parser.rs  (Pratt parser, rule table)
  - src/tachyon_backend/src/vm.rs       (ast_to_bytecode, StackVm::run)

Machine integers are modelled as Nat/Int with explicit wrapping where the
Rust code performs `as` casts (i16, u16, usize).  Rust f64 numbers are
modelled as Rat: all number literals exercised here are small integers on
which f64 arithmetic and Rat arithmetic agree exactly.  Rust panics
(out-of-bounds indexing, Option::unwrap on None) are modelled by an
explicit `crash` outcome, distinct from the VM's `Err` return.
Recursive procedures are given explicit fuel so that every definition is
kernel-computable; fuel exhaustion surfaces as a distinguished outcome
that never occurs at the fuel values used in the theorems.
-/

namespace Graviton

/-- Wrap an exact integer to a signed 16-bit value, as Rust `as i16` does. -/
def toI16 (z : Int) : Int := (z + 32768) % 65536 - 32768

/-- Wrap a natural number to an unsigned 16-bit value, as Rust `as u16` does. -/
def toU16 (n : Nat) : Nat := n % 65536

/-- Wrap an exact integer to a usize (64-bit), as Rust `as usize` does on isize. -/
def wrapUsize (z : Int) : Nat := (z % 18446744073709551616).toNat

/-- Modelled from the spec: the 64-bit hash of a variable's textual name
(`DefaultHasher` from the Rust standard library, external to src/).  The spec
only requires a deterministic 64-bit hash of the name; we use a concrete
polynomial string hash.  The claims never depend on particular hash values,
only on determinism and on distinct short names not colliding. -/
def hashStr (s : String) : Nat :=
  s.data.foldl (fun h c => (h * 31 + c.toNat) % 18446744073709551616) 5381

/-- Runtime values (vm.rs `Value`): Nil, Number(f64), Bool. -/
inductive Value where
  | nil : Value
  | number : Rat → Value
  | bool : Bool → Value
deriving DecidableEq, Repr

/-- Bytecode instructions (vm.rs `ByteOp`).  Payloads: `load` carries a u16
constant index, `defVar`/`setVar`/`getVar` a u64 hashed name, the jumps an
i16 relative offset. -/
inductive ByteOp where
  | load : Nat → ByteOp
  | otrue : ByteOp
  | ofalse : ByteOp
  | onil : ByteOp
  | add : ByteOp
  | sub : ByteOp
  | mul : ByteOp
  | div : ByteOp
  | onot : ByteOp
  | equal : ByteOp
  | greater : ByteOp
  | less : ByteOp
  | negate : ByteOp
  | scopeOpen : ByteOp
  | scopeClose : ByteOp
  | defVar : Nat → ByteOp
  | setVar : Nat → ByteOp
  | getVar : Nat → ByteOp
  | jump : Int → ByteOp
  | jumpFalse : Int → ByteOp
  | jumpTrue : Int → ByteOp
  | pop : ByteOp
  | oret : ByteOp
deriving DecidableEq, Repr

/-- A bytecode unit (vm.rs `Bytecode`): constant pool plus op sequence. -/
structure Bytecode where
  constants : List Value
  ops : List ByteOp
deriving DecidableEq, Repr

/-- Binary operators of the AST consumed by vm.rs (tachyon `BinaryOperation`):
the exhaustive match in `ast_to_bytecode` shows exactly these ten variants. -/
inductive BinOp where
  | bAdd | bSubtract | bMultiply | bDivide
  | bLess | bLessEqual | bGreater | bGreaterEqual | bEquals
  | bAssign
deriving DecidableEq, Repr

/-- Unary operators (`UnaryOperation`). -/
inductive UnOp where
  | uNegate | uNot
deriving DecidableEq, Repr

/-- The AST consumed by the lowerer and produced by the parser.  Variants the
current parser cannot produce and the lowerer rejects (Import, FnDef, FnCall,
As) are represented by `str`, which takes the same "Non implemented AST node"
error path in `ast_to_bytecode` as every unhandled variant. -/
inductive Ast where
  | ident : String → Ast
  | num : Rat → Ast
  | str : String → Ast
  | bool : Bool → Ast
  | statement : Ast → Ast
  | binary : BinOp → Ast → Ast → Ast
  | unary : UnOp → Ast → Ast
  | ret : Ast → Ast
  | block : List Ast → Ast
  | ifElse : Ast → Ast → List (Ast × Ast) → Option Ast → Ast
  | whileLoop : Ast → Ast → Ast
  | letDecl : String → Bool → Option Ast → Ast
deriving Repr

/-- Append one op to a bytecode buffer (`bc.ops.push(op)`). -/
def pushOp (bc : Bytecode) (op : ByteOp) : Bytecode :=
  { bc with ops := bc.ops ++ [op] }

/-- Overwrite the op at an index (`bc.ops[i] = op`); in the lowerer the index
is always in range, so `List.set`'s out-of-range no-op is never exercised. -/
def setOp (bc : Bytecode) (i : Nat) (op : ByteOp) : Bytecode :=
  { bc with ops := bc.ops.set i op }

/-- The constant-pool search of the `Ast::Number` arm: index of the first
constant that is a `Number` bitwise-equal to `n`, counting every pool entry. -/
def findNumIdx (n : Rat) : List Value → Nat → Option Nat
  | [], _ => none
  | v :: rest, idx =>
    match v with
    | .number m => if n = m then some idx else findNumIdx n rest (idx + 1)
    | _ => findNumIdx n rest (idx + 1)

/-- Emission for a non-assign binary operator (the second `match op` in the
`Ast::Binary` arm); the `Assign` case there is the unreachable `{}` arm. -/
def pushBinOp (bc : Bytecode) : BinOp → Bytecode
  | .bAdd => pushOp bc .add
  | .bSubtract => pushOp bc .sub
  | .bMultiply => pushOp bc .mul
  | .bDivide => pushOp bc .div
  | .bLess => pushOp bc .less
  | .bLessEqual => pushOp (pushOp bc .greater) .onot
  | .bGreater => pushOp bc .greater
  | .bGreaterEqual => pushOp (pushOp bc .less) .onot
  | .bEquals => pushOp bc .equal
  | .bAssign => bc

/-- The back-patch loop at the end of the `Ast::IfElse` arm: set each
remembered index `p` to `Jump(len - p)` where `len` is the (unchanging)
final op count, wrapped to i16 exactly as the Rust cast does. -/
def patchGo (len : Int) : Bytecode → List Nat → Bytecode
  | bc, [] => bc
  | bc, p :: ps => patchGo len (setOp bc p (.jump (toI16 (len - p)))) ps

/-- Apply the patch list against the current op count. -/
def patchAll (bc : Bytecode) (ps : List Nat) : Bytecode :=
  patchGo (bc.ops.length : Int) bc ps

/-- What a `Statement` block item is lowered as: a statement-wrapped block
is lowered as the bare inner block (dropping the redundant wrapper), any
other statement as itself. -/
def stmtTarget (expr : Ast) : Ast :=
  match expr with
  | .block items => .block items
  | other => .statement other

/-- The block-lowering loop of the `Ast::Block` arm, parameterised over the
recursive lowering function `low`.  `idx` starts at 1 and `len` is the item
count; a non-statement item anywhere but the last slot is an error. -/
def lowerItems (low : Bytecode → Ast → Except String Bytecode) :
    Bytecode → List Ast → Nat → Nat → Except String Bytecode
  | bc, [], _, _ => .ok bc
  | bc, e :: rest, idx, len =>
    match e with
    | .statement expr =>
      match low bc (stmtTarget expr) with
      | .error s => .error s
      | .ok bc1 => lowerItems low bc1 rest (idx + 1) len
    | expr =>
      if idx ≠ len then
        .error "Only the last element in a block may be an expression"
      else
        match low bc expr with
        | .error s => .error s
        | .ok bc1 => lowerItems low (pushOp bc1 .oret) rest (idx + 1) len

/-- The elif loop of the `Ast::IfElse` arm: lower each elif condition and
body, patch its `JumpFalse`, and (only when an else arm exists) push a
`Jump(1)` placeholder and remember its index. -/
def lowerElifs (low : Bytecode → Ast → Except String Bytecode) (hasElse : Bool) :
    Bytecode → List (Ast × Ast) → List Nat → Except String (Bytecode × List Nat)
  | bc, [], ps => .ok (bc, ps)
  | bc, (cond, expr) :: rest, ps =>
    match low bc cond with
    | .error s => .error s
    | .ok bc1 =>
      let bc2 := pushOp bc1 (.jumpFalse 1)
      let lastJumpIdx := bc2.ops.length - 1
      match low bc2 expr with
      | .error s => .error s
      | .ok bc3 =>
        let bc4 := setOp bc3 lastJumpIdx
          (.jumpFalse (toI16 ((bc3.ops.length : Int) - (lastJumpIdx : Int) + 1)))
        if hasElse then
          lowerElifs low hasElse (pushOp bc4 (.jump 1)) rest (ps ++ [bc4.ops.length])
        else
          lowerElifs low hasElse bc4 rest ps

/-- Everything of the `Ast::IfElse` arm before the final patch loop: returns
the lowered buffer together with the remembered patch indices. -/
def ifElseCore (low : Bytecode → Ast → Except String Bytecode)
    (bc : Bytecode) (ifcond ifexpr : Ast) (elseifs : List (Ast × Ast))
    (elseexpr : Option Ast) : Except String (Bytecode × List Nat) :=
  match low bc ifcond with
  | .error s => .error s
  | .ok bc1 =>
    let bc2 := pushOp bc1 (.jumpFalse 1)
    let lastJumpIdx := bc2.ops.length - 1
    match low bc2 ifexpr with
    | .error s => .error s
    | .ok bc3 =>
      let bc4 := setOp bc3 lastJumpIdx
        (.jumpFalse (toI16 ((bc3.ops.length : Int) - (lastJumpIdx : Int) + 1)))
      let start : Bytecode × List Nat :=
        match elseexpr with
        | some _ => (pushOp bc4 (.jump 1), [bc4.ops.length])
        | none => (bc4, [])
      match lowerElifs low elseexpr.isSome start.1 elseifs start.2 with
      | .error s => .error s
      | .ok (bc5, ps) =>
        match elseexpr with
        | some e =>
          match low bc5 e with
          | .error s => .error s
          | .ok bc6 => .ok (bc6, ps)
        | none => .ok (bc5, ps)

/-- The lowerer `ast_to_bytecode` of vm.rs, with explicit fuel (decremented
on entry; the Rust recursion is structural on the AST, so AST depth + 1 fuel
always suffices and fuel exhaustion is unreachable at the values used). -/
def astToBytecode : Nat → Bytecode → Ast → Except String Bytecode
  | 0, _, _ => .error "lowering fuel exhausted"
  | Nat.succ f, bc, ast =>
    match ast with
    | .ident ident => .ok (pushOp bc (.getVar (hashStr ident)))
    | .num n =>
      match findNumIdx n bc.constants 0 with
      | some idx => .ok (pushOp bc (.load (toU16 idx)))
      | none =>
        let constants := bc.constants ++ [Value.number n]
        .ok { constants := constants,
              ops := bc.ops ++ [ByteOp.load (toU16 (constants.length - 1))] }
    | .bool b => .ok (pushOp bc (if b then .otrue else .ofalse))
    | .statement expr =>
      match astToBytecode f bc expr with
      | .error s => .error s
      | .ok bc1 => .ok (pushOp bc1 .pop)
    | .binary op l r =>
      match op with
      | .bAssign =>
        match l with
        | .ident ident =>
          match astToBytecode f bc r with
          | .error s => .error s
          | .ok bc1 => .ok (pushOp bc1 (.setVar (hashStr ident)))
        | _ => .error "Assign must assign to variable"
      | _ =>
        match astToBytecode f bc l with
        | .error s => .error s
        | .ok bc1 =>
          match astToBytecode f bc1 r with
          | .error s => .error s
          | .ok bc2 => .ok (pushBinOp bc2 op)
    | .unary op expr =>
      match astToBytecode f bc expr with
      | .error s => .error s
      | .ok bc1 =>
        .ok (pushOp bc1 (match op with | .uNegate => .negate | .uNot => .onot))
    | .ret expr =>
      match astToBytecode f bc expr with
      | .error s => .error s
      | .ok bc1 => .ok (pushOp bc1 .oret)
    | .block exprs =>
      match lowerItems (astToBytecode f) (pushOp bc .scopeOpen) exprs 1 exprs.length with
      | .error s => .error s
      | .ok bc1 => .ok (pushOp bc1 .scopeClose)
    | .ifElse ifcond ifexpr elseifs elseexpr =>
      match ifElseCore (astToBytecode f) bc ifcond ifexpr elseifs elseexpr with
      | .error s => .error s
      | .ok (bc1, ps) => .ok (patchAll bc1 ps)
    | .whileLoop cond expr =>
      let beginIdx := bc.ops.length
      match astToBytecode f bc cond with
      | .error s => .error s
      | .ok bc1 =>
        let bc2 := pushOp bc1 (.jumpFalse 1)
        let condJumpIdx := bc2.ops.length - 1
        match astToBytecode f bc2 expr with
        | .error s => .error s
        | .ok bc3 =>
          let bc4 := pushOp bc3 (.jump (toI16 ((beginIdx : Int) - (bc3.ops.length : Int))))
          .ok (setOp bc4 condJumpIdx
            (.jumpFalse (toI16 ((bc4.ops.length : Int) - (condJumpIdx : Int)))))
    | .letDecl name _mutable setExpr =>
      match
        (match setExpr with
         | some se => astToBytecode f bc se
         | none => .ok bc) with
      | .error s => .error s
      | .ok bc1 => .ok (pushOp bc1 (.defVar (hashStr name)))
    | .str _ => .error "Non implemented AST node"

/-- `Bytecode::new`: lower an AST into a fresh buffer. -/
def bytecodeNew (fuel : Nat) (ast : Ast) : Except String Bytecode :=
  astToBytecode fuel { constants := [], ops := [] } ast

/-- A lexical scope (vm.rs `Scope`): a finite map from hashed name to value,
modelled as an association list. -/
def Scope : Type := List (Nat × Value)

instance : DecidableEq Scope := inferInstanceAs (DecidableEq (List (Nat × Value)))

/-- `HashMap::get` on a scope. -/
def lookupVar (s : Scope) (id : Nat) : Option Value :=
  match s.find? (fun kv => kv.1 = id) with
  | some kv => some kv.2
  | none => none

/-- `HashMap::insert` on a scope (replaces an existing binding). -/
def insertVar (s : Scope) (id : Nat) (v : Value) : Scope :=
  match s with
  | [] => [(id, v)]
  | kv :: rest => if kv.1 = id then (id, v) :: rest else kv :: insertVar rest id v

/-- `StackVm::var_in_scopes`: search the scope stack innermost-first.  The
scope list here is head-innermost, matching the Rust `iter().rev()` order
over a `Vec` whose last element is the innermost scope. -/
def varInScopes (scopes : List Scope) (id : Nat) : Option Value :=
  match scopes with
  | [] => none
  | s :: rest =>
    match lookupVar s id with
    | some v => some v
    | none => varInScopes rest id

/-- `var_in_scopes_mut` followed by `*val = v`: update the binding found by
the innermost-first search.  Caller guarantees the variable exists. -/
def updateVarInScopes (scopes : List Scope) (id : Nat) (v : Value) : List Scope :=
  match scopes with
  | [] => []
  | s :: rest =>
    match lookupVar s id with
    | some _ => insertVar s id v :: rest
    | none => s :: updateVarInScopes rest id v

/-- VM state (vm.rs `StackVm`): instruction pointer, operand stack
(head = top of stack), scope stack (head = innermost). -/
structure VmState where
  ip : Nat
  stack : List Value
  scopes : List Scope
deriving DecidableEq

/-- Result of one `run` invocation.  `halt v` is the `Ok(v)` return (the
spec's `Halted`), `err` the `Err(String)` return (`Faulted`), `crash` a Rust
panic (out-of-bounds index in `stack_peek`, `unwrap` on `None`), and
`noFuel` the artifact of the fuelled loop, unreachable at the fuel values
used in the theorems. -/
inductive VmOutcome where
  | halt : Value → VmOutcome
  | err : String → VmOutcome
  | crash : VmOutcome
  | noFuel : VmOutcome
deriving DecidableEq, Repr

/-- Result of one iteration of the `'run` loop. -/
inductive StepRes where
  | next : VmState → StepRes
  | stop : VmOutcome → StepRes
deriving DecidableEq

/-- The "variable already defined" message of the `DefVar` arm (the typo is
the source's). -/
def defVarErrMsg (id : Nat) : String :=
  "Variable: " ++ toString id ++ " arleady defined"

/-- One iteration of `StackVm::run`'s `'run: loop`.  `stack_peek(d)` reads
`stack[len - 1 - d]`, which panics when the stack holds at most `d` values:
with the head-as-top list encoding that is exactly a failed `get? d`, and
each such panic is the explicit `crash` outcome.  Binary numeric ops peek
depth 0 (the right operand `b`) and depth 1 (the left operand `a`) before
popping. -/
def step (bc : Bytecode) (st : VmState) : StepRes :=
  match bc.ops.get? st.ip with
  | none => .stop (.halt .nil)
  | some op =>
    match op with
    | .load n =>
      match bc.constants.get? n with
      | none => .stop .crash
      | some v => .next { st with stack := v :: st.stack, ip := st.ip + 1 }
    | .otrue => .next { st with stack := .bool true :: st.stack, ip := st.ip + 1 }
    | .ofalse => .next { st with stack := .bool false :: st.stack, ip := st.ip + 1 }
    | .onil => .next { st with stack := .nil :: st.stack, ip := st.ip + 1 }
    | .add => stepBinNum st "add" (fun a b => .number (a + b))
    | .sub => stepBinNum st "sub" (fun a b => .number (a - b))
    | .mul => stepBinNum st "mul" (fun a b => .number (a * b))
    | .div => stepBinNum st "div" (fun a b => .number (a / b))
    | .equal => stepBinNum st "equal" (fun a b => .bool (decide (a = b)))
    | .greater => stepBinNum st "greater" (fun a b => .bool (decide (a > b)))
    | .less => stepBinNum st "less" (fun a b => .bool (decide (a < b)))
    | .onot =>
      match st.stack with
      | [] => .stop .crash
      | .nil :: _ => .stop (.err "Unary not value cannot be nil")
      | .number _ :: _ => .stop (.err "Unary value cannot be number")
      | .bool b :: rest => .next { st with stack := .bool (!b) :: rest, ip := st.ip + 1 }
    | .negate =>
      match st.stack with
      | [] => .stop .crash
      | .nil :: _ => .stop (.err "Unary negate value cannot be nil")
      | .bool _ :: _ => .stop (.err "Unary negate value cannot be bool")
      | .number n :: rest => .next { st with stack := .number (-n) :: rest, ip := st.ip + 1 }
    | .scopeOpen => .next { st with scopes := ([] : Scope) :: st.scopes, ip := st.ip + 1 }
    | .scopeClose => .next { st with scopes := st.scopes.tail, ip := st.ip + 1 }
    | .defVar id =>
      match varInScopes st.scopes id with
      | some _ => .stop (.err (defVarErrMsg id))
      | none =>
        match st.scopes with
        | [] => .stop .crash
        | s :: rest =>
          match st.stack with
          | [] => .next { st with scopes := insertVar s id .nil :: rest, ip := st.ip + 1 }
          | v :: stackRest =>
            .next { st with stack := v :: stackRest, scopes := insertVar s id v :: rest, ip := st.ip + 1 }
    | .setVar id =>
      match varInScopes st.scopes id with
      | none => .stop (.err ("Variable " ++ toString id ++ " not defined"))
      | some _ =>
        match st.stack with
        | [] => .next { st with scopes := updateVarInScopes st.scopes id .nil, ip := st.ip + 1 }
        | v :: stackRest =>
          .next { st with stack := v :: stackRest, scopes := updateVarInScopes st.scopes id v, ip := st.ip + 1 }
    | .getVar id =>
      match varInScopes st.scopes id with
      | some v => .next { st with stack := v :: st.stack, ip := st.ip + 1 }
      | none => .stop (.err "Failed to find variable in scope")
    | .jump d => .next { st with ip := wrapUsize ((st.ip : Int) + d) }
    | .jumpFalse d =>
      match st.stack with
      | [] => .stop .crash
      | .nil :: _ => .stop (.err "Jump on false value cannot be nil")
      | .number _ :: _ => .stop (.err "Jump on false value cannot be bool")
      | .bool b :: rest =>
        if b then .next { st with stack := rest, ip := st.ip + 1 }
        else .next { st with stack := rest, ip := wrapUsize ((st.ip : Int) + d) }
    | .jumpTrue d =>
      match st.stack with
      | [] => .stop .crash
      | .nil :: _ => .stop (.err "Jump on true value cannot be nil")
      | .number _ :: _ => .stop (.err "Jump on true value cannot be bool")
      | .bool b :: rest =>
        if b then .next { st with stack := rest, ip := wrapUsize ((st.ip : Int) + d) }
        else .next { st with stack := rest, ip := st.ip + 1 }
    | .pop => .next { st with stack := st.stack.tail, ip := st.ip + 1 }
    | .oret =>
      match st.stack with
      | v :: stackRest =>
        let scopes := st.scopes.tail
        if scopes.length > 0 then
          .next { st with stack := v :: stackRest, scopes := scopes, ip := st.ip + 1 }
        else .stop (.halt v)
      | [] =>
        let scopes := st.scopes.tail
        if scopes.length > 0 then
          .next { st with stack := [.nil], scopes := scopes, ip := st.ip + 1 }
        else .stop (.halt .nil)
where
  -- Shared shape of the seven numeric binary ops: peek(0) is `b`, peek(1)
  -- is `a`; type mismatches surface the op-specific message, underflow of
  -- either peek is a panic.
  stepBinNum (st : VmState) (name : String) (f : Rat → Rat → Value) : StepRes :=
    match st.stack with
    | [] => .stop .crash
    | .nil :: _ => .stop (.err ("Binary " ++ name ++ " value cannot be nil"))
    | .bool _ :: _ => .stop (.err ("Binary " ++ name ++ " value cannot be bool"))
    | .number b :: rest0 =>
      match rest0 with
      | [] => .stop .crash
      | .nil :: _ => .stop (.err ("Binary " ++ name ++ " value cannot be nil"))
      | .bool _ :: _ => .stop (.err ("Binary " ++ name ++ " value cannot be bool"))
      | .number a :: rest => .next { st with stack := f a b :: rest, ip := st.ip + 1 }

/-- The fuelled `'run: loop` of `StackVm::run`. -/
def runLoop (bc : Bytecode) : Nat → VmState → VmOutcome
  | 0, _ => .noFuel
  | Nat.succ f, st =>
    match step bc st with
    | .stop r => r
    | .next st' => runLoop bc f st'

/-- `StackVm::run` on a fresh VM (`StackVm::new()`): `ip = 0`, empty operand
stack, empty scope stack. -/
def runVm (fuel : Nat) (bc : Bytecode) : VmOutcome :=
  runLoop bc fuel { ip := 0, stack := [], scopes := [] }

/-- Token kinds (tachyon_frontend `TokenType`), in the order of the 44-entry
rule table. -/
inductive TokenType where
  | lparen | rparen | lcurly | rcurly | lbracket | rbracket
  | comma | dot | semicolon
  | plus | minus | star | slash
  | bang | bangEqual | equal | equalEqual
  | greater | greaterEqual | less | lessEqual
  | colon | identifier | string | number
  | kwAnd | kwOr | kwSelf | kwStruct | kwReturn | kwImport
  | kwLet | kwDef | kwMut | kwIf | kwElse | kwWhile | kwFor | kwBreak
  | kwTrue | kwFalse | kwNil
  | tokErr | eof
deriving DecidableEq, Repr

/-- Token payload (`TokenData`). -/
inductive TokenData where
  | none : TokenData
  | number : Rat → TokenData
  | str : String → TokenData
deriving DecidableEq, Repr

/-- Source position, `-1` marking synthetic tokens. -/
structure Pos where
  line : Int
  col : Int
deriving DecidableEq, Repr

/-- A lexer token. -/
structure Token where
  ttype : TokenType
  data : TokenData
  pos : Pos
deriving DecidableEq, Repr

/-- Prefix rule slots of the rule table; `pnone` is the `nil_func` entry,
which `parse_precedence` detects by pointer equality before calling. -/
inductive PfxFn where
  | pnone | pgrouping | pblock | punary | pliteral | plet | pifElse | pwhile
deriving DecidableEq, Repr

/-- Infix rule slots; every non-`nil_func` infix entry in the table is
`binary`. -/
inductive IfxFn where
  | inone | ibinary
deriving DecidableEq, Repr

/-- One row of `PARSER_RULE_TABLE`. -/
structure ParseRule where
  pfx : PfxFn
  ifx : IfxFn
  prec : Nat
deriving DecidableEq, Repr

/-- Precedence ordinals (`Prec` as `u8`). -/
def precNone : Nat := 0
def precAssignment : Nat := 1
def precComparison : Nat := 5
def precTerm : Nat := 6
def precFactor : Nat := 7
def precUnary : Nat := 8
def precCall : Nat := 9
def precEquality : Nat := 4

/-- `get_rule`: the static `PARSER_RULE_TABLE`, one row per token kind. -/
def getRule : TokenType → ParseRule
  | .lparen => ⟨.pgrouping, .inone, precCall⟩
  | .rparen => ⟨.pnone, .inone, precNone⟩
  | .lcurly => ⟨.pblock, .inone, precNone⟩
  | .rcurly => ⟨.pnone, .inone, precNone⟩
  | .lbracket => ⟨.pnone, .inone, precNone⟩
  | .rbracket => ⟨.pnone, .inone, precNone⟩
  | .comma => ⟨.pnone, .inone, precNone⟩
  | .dot => ⟨.pnone, .inone, precNone⟩
  | .semicolon => ⟨.pnone, .inone, precNone⟩
  | .plus => ⟨.pnone, .ibinary, precTerm⟩
  | .minus => ⟨.punary, .ibinary, precTerm⟩
  | .star => ⟨.pnone, .ibinary, precFactor⟩
  | .slash => ⟨.pnone, .ibinary, precFactor⟩
  | .bang => ⟨.pnone, .ibinary, precNone⟩
  | .bangEqual => ⟨.pnone, .ibinary, precComparison⟩
  | .equal => ⟨.pnone, .ibinary, precAssignment⟩
  | .equalEqual => ⟨.pnone, .ibinary, precEquality⟩
  | .greater => ⟨.pnone, .ibinary, precComparison⟩
  | .greaterEqual => ⟨.pnone, .ibinary, precComparison⟩
  | .less => ⟨.pnone, .ibinary, precComparison⟩
  | .lessEqual => ⟨.pnone, .ibinary, precComparison⟩
  | .colon => ⟨.pnone, .inone, precNone⟩
  | .identifier => ⟨.pnone, .inone, precNone⟩
  | .string => ⟨.pliteral, .inone, precNone⟩
  | .number => ⟨.pliteral, .inone, precNone⟩
  | .kwAnd => ⟨.pnone, .inone, precNone⟩
  | .kwOr => ⟨.pnone, .inone, precNone⟩
  | .kwSelf => ⟨.pnone, .inone, precNone⟩
  | .kwStruct => ⟨.pnone, .inone, precNone⟩
  | .kwReturn => ⟨.pnone, .inone, precNone⟩
  | .kwImport => ⟨.pnone, .inone, precNone⟩
  | .kwLet => ⟨.plet, .inone, precNone⟩
  | .kwDef => ⟨.pnone, .inone, precNone⟩
  | .kwMut => ⟨.pnone, .inone, precNone⟩
  | .kwIf => ⟨.pifElse, .inone, precNone⟩
  | .kwElse => ⟨.pnone, .inone, precNone⟩
  | .kwWhile => ⟨.pwhile, .inone, precNone⟩
  | .kwFor => ⟨.pnone, .inone, precNone⟩
  | .kwBreak => ⟨.pnone, .inone, precNone⟩
  | .kwTrue => ⟨.pliteral, .inone, precNone⟩
  | .kwFalse => ⟨.pliteral, .inone, precNone⟩
  | .kwNil => ⟨.pnone, .inone, precNone⟩
  | .tokErr => ⟨.pnone, .inone, precNone⟩
  | .eof => ⟨.pnone, .inone, precNone⟩

/-- The synthetic EOF token the parser substitutes when the lexer is
exhausted. -/
def eofToken : Token := ⟨.eof, .none, ⟨-1, -1⟩⟩

/-- Parser state: the remaining token stream (standing for the lexer),
`current`/`previous`, and the `prefix_node` slot infix rules read. -/
structure PState where
  toks : List Token
  current : Token
  previous : Token
  pfxNode : Ast

/-- `Parser::advance`. -/
def pAdvance (st : PState) : PState :=
  match st.toks with
  | t :: rest => { st with previous := st.current, current := t, toks := rest }
  | [] => { st with previous := st.current, current := eofToken }

/-- `Parser::make_error`: prepend the previous token's position. -/
def makeError (st : PState) (msg : String) : String :=
  "Line: " ++ toString st.previous.pos.line ++ ", Col: " ++ toString st.previous.pos.col
    ++ ", " ++ msg

/-- `Parser::consume`. -/
def pConsume (st : PState) (tt : TokenType) (errMsg : String) : Except String PState :=
  if st.current.ttype = tt then .ok (pAdvance st) else .error (makeError st errMsg)

/-- `Parser::check`. -/
def pCheck (st : PState) (tt : TokenType) : Bool := st.current.ttype = tt

/-- The `literal` rule: reads the previous token. -/
def literalFn (st : PState) : Except String (PState × Ast) :=
  match st.previous.ttype with
  | .number =>
    .ok (st, .num (match st.previous.data with | .number n => n | _ => 0))
  | .string =>
    .ok (st, .str (match st.previous.data with | .str s => s | _ => "Error"))
  | .kwTrue => .ok (st, .bool true)
  | .kwFalse => .ok (st, .bool false)
  | _ => .error (makeError st "Unreachable error for literal()")

/-- Shorthand for the type of `parse_precedence` partially applied at some
fuel, which the rule functions call back into. -/
abbrev PP : Type := PState → Nat → Except String (PState × Ast)

/-- The `binary` infix rule: left operand is the stored `prefix_node`,
operator is the previous token, right operand parsed at the operator's own
table precedence (no +1 bias). -/
def binaryFn (pp : PP) (st : PState) : Except String (PState × Ast) :=
  let left := st.pfxNode
  let op := st.previous.ttype
  match pp st (getRule op).prec with
  | .error s => .error s
  | .ok (st1, right) =>
    match op with
    | .plus => .ok (st1, .binary .bAdd left right)
    | .minus => .ok (st1, .binary .bSubtract left right)
    | .star => .ok (st1, .binary .bMultiply left right)
    | .slash => .ok (st1, .binary .bDivide left right)
    | .less => .ok (st1, .binary .bLess left right)
    | .lessEqual => .ok (st1, .binary .bLessEqual left right)
    | .greater => .ok (st1, .binary .bGreater left right)
    | .greaterEqual => .ok (st1, .binary .bGreaterEqual left right)
    | .equalEqual => .ok (st1, .binary .bEquals left right)
    | .equal => .ok (st1, .binary .bAssign left right)
    | _ => .error (makeError st1 "Invalid binary operator")

/-- The `unary` rule. -/
def unaryFn (pp : PP) (st : PState) : Except String (PState × Ast) :=
  let op := st.previous.ttype
  match pp st precUnary with
  | .error s => .error s
  | .ok (st1, expr) =>
    match op with
    | .minus => .ok (st1, .unary .uNegate expr)
    | .bang => .ok (st1, .unary .uNot expr)
    | _ => .error (makeError st1 "Invalid unary operator")

/-- The `grouping` rule. -/
def groupingFn (pp : PP) (st : PState) : Except String (PState × Ast) :=
  match pp st precAssignment with
  | .error s => .error s
  | .ok (st1, expr) =>
    match pConsume st1 .rparen "Expected closing right parenthesis" with
    | .error s => .error s
    | .ok st2 => .ok (st2, expr)

/-- The collection loop of the `block` rule, fuelled (each iteration parses
one expression). -/
def blockLoop (pp : PP) : Nat → PState → List Ast → Except String (PState × List Ast)
  | 0, _, _ => .error "parsing fuel exhausted"
  | Nat.succ f, st, acc =>
    if pCheck st .rcurly then .ok (st, acc)
    else
      match pp st precAssignment with
      | .error s => .error s
      | .ok (st1, e) => blockLoop pp f st1 (acc ++ [e])

/-- The `block` rule. -/
def blockFn (pp : PP) (fuel : Nat) (st : PState) : Except String (PState × Ast) :=
  match blockLoop pp fuel st [] with
  | .error s => .error s
  | .ok (st1, exprs) =>
    match pConsume st1 .rcurly "Expected closing right curly bracket" with
    | .error s => .error s
    | .ok st2 => .ok (st2, .block exprs)

/-- The else/elif collection loop of the `if_else` rule. -/
def ifElseLoop (pp : PP) :
    Nat → PState → List (Ast × Ast) → Except String (PState × List (Ast × Ast) × Option Ast)
  | 0, _, _ => .error "parsing fuel exhausted"
  | Nat.succ f, st, acc =>
    if pCheck st .kwElse then
      let st := pAdvance st
      if pCheck st .kwIf then
        let st := pAdvance st
        match pp st precAssignment with
        | .error s => .error s
        | .ok (st1, cond) =>
          match pp st1 precAssignment with
          | .error s => .error s
          | .ok (st2, body) => ifElseLoop pp f st2 (acc ++ [(cond, body)])
      else
        match pp st precAssignment with
        | .error s => .error s
        | .ok (st1, body) => .ok (st1, acc, some body)
    else .ok (st, acc, none)

/-- The `if_else` rule. -/
def ifElseFn (pp : PP) (fuel : Nat) (st : PState) : Except String (PState × Ast) :=
  match pp st precAssignment with
  | .error s => .error s
  | .ok (st1, ifCond) =>
    match pp st1 precAssignment with
    | .error s => .error s
    | .ok (st2, ifBlock) =>
      match ifElseLoop pp fuel st2 [] with
      | .error s => .error s
      | .ok (st3, elifs, elseB) => .ok (st3, .ifElse ifCond ifBlock elifs elseB)

/-- The `while` rule. -/
def whileFn (pp : PP) (st : PState) : Except String (PState × Ast) :=
  match pp st precAssignment with
  | .error s => .error s
  | .ok (st1, cond) =>
    match pp st1 precAssignment with
    | .error s => .error s
    | .ok (st2, body) => .ok (st2, .whileLoop cond body)

/-- The `let` rule: optional `mut`, identifier, optional `= expr`
initialiser; a trailing `;` wraps the result in `Statement`. -/
def letFn (pp : PP) (st : PState) : Except String (PState × Ast) :=
  let (st, mutable) := if pCheck st .kwMut then (pAdvance st, true) else (st, false)
  match pConsume st .identifier "Expected identifier for variable name" with
  | .error s => .error s
  | .ok st1 =>
    match st1.previous.data with
    | .str ident =>
      match
        ((if pCheck st1 .equal then
          match pp (pAdvance st1) precAssignment with
          | .error s => .error s
          | .ok (st2, e) => .ok (st2, some e)
        else .ok (st1, Option.none)) : Except String (PState × Option Ast)) with
      | .error s => .error s
      | .ok (st3, valExpr) =>
        if pCheck st3 .semicolon then
          .ok (pAdvance st3, .statement (.letDecl ident mutable valExpr))
        else .ok (st3, .letDecl ident mutable valExpr)
    | _ => .error (makeError st1 "Could not read identifier name from token")

/-- The infix portion of `parse_precedence`: while the current token's table
precedence is at least the threshold, advance and run its infix rule,
storing each result back into `prefix_node`. -/
def ifxLoop (pp : PP) : Nat → PState → Nat → Except String PState
  | 0, _, _ => .error "parsing fuel exhausted"
  | Nat.succ f, st, prec =>
    if prec ≤ (getRule st.current.ttype).prec then
      let st := pAdvance st
      match (getRule st.previous.ttype).ifx with
      | .inone => .error (makeError st "Expected infix expression")
      | .ibinary =>
        match binaryFn pp st with
        | .error s => .error s
        | .ok (st1, a) => ifxLoop pp f { st1 with pfxNode := a } prec
    else .ok st

/-- `parse_precedence`, fuelled: advance, dispatch the previous token's
prefix rule (a `nil_func` entry fails with "Expected prefix expression"),
store the result in `prefix_node`, then run the infix loop and return the
final `prefix_node`. -/
def parsePrecedence : Nat → PState → Nat → Except String (PState × Ast)
  | 0, _, _ => .error "parsing fuel exhausted"
  | Nat.succ f, st, prec =>
    let st := pAdvance st
    let pp : PP := fun s p => parsePrecedence f s p
    match
      ((match (getRule st.previous.ttype).pfx with
       | .pnone => .error (makeError st "Expected prefix expression")
       | .pliteral => literalFn st
       | .pgrouping => groupingFn pp st
       | .punary => unaryFn pp st
       | .pblock => blockFn pp f st
       | .plet => letFn pp st
       | .pifElse => ifElseFn pp f st
       | .pwhile => whileFn pp st) : Except String (PState × Ast)) with
    | .error s => .error s
    | .ok (st1, a) =>
      match ifxLoop pp f { st1 with pfxNode := a } prec with
      | .error s => .error s
      | .ok st2 => .ok (st2, st2.pfxNode)

/-- `Parser::parse`: prime the lookahead, parse one expression at
`Assignment` precedence, then require EOF. -/
def parseTokens (fuel : Nat) (toks : List Token) : Except String Ast :=
  let st : PState := { toks := toks, current := eofToken, previous := eofToken,
                       pfxNode := .block [] }
  let st := pAdvance st
  match parsePrecedence fuel st precAssignment with
  | .error s => .error s
  | .ok (st1, ast) =>
    match pConsume st1 .eof "Expected EOF" with
    | .error s => .error s
    | .ok _ => .ok ast

/-- The full pipeline of the shell's evaluation path: parse, lower
(`Bytecode::new`), then run on a fresh `StackVm`. -/
def pipeline (pfuel lfuel vfuel : Nat) (toks : List Token) : Except String VmOutcome :=
  match parseTokens pfuel toks with
  | .error s => .error s
  | .ok ast =>
    match bytecodeNew lfuel ast with
    | .error s => .error s
    | .ok bc => .ok (runVm vfuel bc)

/-- Build a token on line 1 at a given column. -/
def tk (tt : TokenType) (d : TokenData) (c : Int) : Token := ⟨tt, d, ⟨1, c⟩⟩

/-- Modelled from the spec: the token stream the external lexer (not under
src/) produces for the source `1 + 2 * 3` — number and operator tokens with
their line-1 source columns. -/
def toksC1 : List Token :=
  [tk .number (.number 1) 1, tk .plus .none 3, tk .number (.number 2) 5,
   tk .star .none 7, tk .number (.number 3) 9]

/-- Modelled from the spec: the token stream of
`{ let x = 10; let y = 20; x + y }`; identifier tokens carry their name as a
string payload. -/
def toksC2 : List Token :=
  [tk .lcurly .none 1,
   tk .kwLet .none 3, tk .identifier (.str "x") 7, tk .equal .none 9,
   tk .number (.number 10) 11, tk .semicolon .none 13,
   tk .kwLet .none 15, tk .identifier (.str "y") 19, tk .equal .none 21,
   tk .number (.number 20) 23, tk .semicolon .none 25,
   tk .identifier (.str "x") 27, tk .plus .none 29, tk .identifier (.str "y") 31,
   tk .rcurly .none 33]

/-- Modelled from the spec: the token stream of
`if false { 1 } else if true { 2 } else { 3 }`. -/
def toksC8 : List Token :=
  [tk .kwIf .none 1, tk .kwFalse .none 4,
   tk .lcurly .none 10, tk .number (.number 1) 12, tk .rcurly .none 14,
   tk .kwElse .none 16, tk .kwIf .none 21, tk .kwTrue .none 24,
   tk .lcurly .none 29, tk .number (.number 2) 31, tk .rcurly .none 33,
   tk .kwElse .none 35, tk .lcurly .none 40, tk .number (.number 3) 42,
   tk .rcurly .none 44]

/-! ## Basic facts about the emission helpers -/

@[simp] lemma pushOp_ops (bc : Bytecode) (op : ByteOp) : (pushOp bc op).ops = bc.ops ++ [op] := rfl

@[simp] lemma pushOp_constants (bc : Bytecode) (op : ByteOp) :
    (pushOp bc op).constants = bc.constants := rfl

@[simp] lemma setOp_ops (bc : Bytecode) (i : Nat) (op : ByteOp) :
    (setOp bc i op).ops = bc.ops.set i op := rfl

@[simp] lemma setOp_constants (bc : Bytecode) (i : Nat) (op : ByteOp) :
    (setOp bc i op).constants = bc.constants := rfl

/-- Concrete result ASTs and bytecodes used by the scenario theorems. -/
def astC1 : Ast := .binary .bAdd (.num 1) (.binary .bMultiply (.num 2) (.num 3))

def astC8 : Ast :=
  .ifElse (.bool false) (.block [.num 1]) [(.bool true, .block [.num 2])]
    (some (.block [.num 3]))

def bcC8 : Bytecode :=
  { constants := [.number 1, .number 2, .number 3],
    ops := [.ofalse, .jumpFalse 6, .scopeOpen, .load 0, .oret, .scopeClose,
            .jump 12, .otrue, .jumpFalse 6, .scopeOpen, .load 1, .oret, .scopeClose,
            .jump 5, .scopeOpen, .load 2, .oret, .scopeClose] }

def bcC6 : Bytecode :=
  { constants := [.number 1],
    ops := [.ofalse, .jumpFalse 6, .scopeOpen, .load 0, .oret, .scopeClose] }

def astC10 : Ast := .letDecl "x" false (some (.num 1))

/-- Parsing followed by lowering, the compile half of the pipeline. -/
def parseAndLower (pfuel lfuel : Nat) (toks : List Token) : Except String Bytecode :=
  match parseTokens pfuel toks with
  | .error s => .error s
  | .ok ast => bytecodeNew lfuel ast

/-! ## C1 -/

/-- C1, counterexample: on the token stream of `1 + 2 * 3` the full pipeline
halts with `Nil`, not `Number(7.0)` — the lowered bytecode for a bare
top-level expression ends without a `Return`, so `run`'s instruction pointer
falls off the end and returns `Nil` (vm.rs line 568/572). -/
theorem c1_counterexample :
    pipeline 100 100 100 toksC1 = .ok (.halt .nil)
    ∧ Value.nil ≠ Value.number 7 := by
  exact ⟨rfl, by decide⟩

/-- C1, amended: `*` does bind tighter than `+` (the AST is
`Add(1, Mul(2, 3))`), but the pipeline terminates in Halted with `Nil`: the
evaluated 7 is left on the operand stack and discarded when `ip` falls off
the end of the op list. -/
theorem c1_amended :
    parseTokens 100 toksC1 = .ok astC1
    ∧ bytecodeNew 100 astC1 =
        .ok { constants := [.number 1, .number 2, .number 3],
              ops := [.load 0, .load 1, .load 2, .mul, .add] }
    ∧ pipeline 100 100 100 toksC1 = .ok (.halt .nil) :=
  ⟨rfl, rfl, rfl⟩

/-! ## C2 -/

/-- C2: the rule table row for `Identifier` has `nil_func` as its prefix
entry, so the final expression `x + y` of the block fails to parse with
"Expected prefix expression" at `x` (line 1, col 27) and the pipeline
aborts; it never reaches `Number(30.0)`. -/
theorem c2_code_bug :
    parseTokens 100 toksC2 = .error "Line: 1, Col: 27, Expected prefix expression"
    ∧ pipeline 100 100 100 toksC2 = .error "Line: 1, Col: 27, Expected prefix expression" :=
  ⟨rfl, rfl⟩

/-! ## C3 -/

/-- C3: executing an arithmetic opcode with an empty operand stack does not
return the VM's error result — `stack_peek(0)` computes `stack[len - 1]` on
`len = 0`, an out-of-bounds panic (modelled as `crash`), which is distinct
from every `Err` return. -/
theorem c3_code_bug :
    runVm 10 { constants := [], ops := [.add] } = .crash
    ∧ ∀ s, (VmOutcome.crash ≠ VmOutcome.err s) :=
  ⟨rfl, fun _ h => VmOutcome.noConfusion h⟩

/-! ## C4 -/

/-- Ops emitted for `n` consecutive `Statement(Bool(true))` block items. -/
def stmtTrueOps : Nat → List ByteOp
  | 0 => []
  | n + 1 => .otrue :: .pop :: stmtTrueOps n

/-- An `if` whose then-arm is a block of `n` trivial statements: the patched
`JumpFalse` offset is `2n + 4`. -/
def bigAstN (n : Nat) : Ast :=
  .ifElse (.bool false) (.block (List.replicate n (.statement (.bool true)))) [] none

/-- The bytecode `bigAstN n` lowers to: the `JumpFalse` holds the i16-wrapped
image of the true offset `2n + 4`. -/
def c4Bc (n : Nat) : Bytecode :=
  { constants := [],
    ops := .ofalse :: .jumpFalse (toI16 (2 * (n : Int) + 4)) :: .scopeOpen ::
      (stmtTrueOps n ++ [.scopeClose]) }

lemma stmtTrueOps_length (n : Nat) : (stmtTrueOps n).length = 2 * n := by
  induction n with
  | zero => rfl
  | succ n ih => simp [stmtTrueOps, ih]; omega

lemma astToBytecode_stmtTrue (f : Nat) (bc : Bytecode) :
    astToBytecode (f + 2) bc (.statement (.bool true)) = .ok (pushOp (pushOp bc .otrue) .pop) :=
  rfl

lemma astToBytecode_block_arm (f : Nat) (bc : Bytecode) (exprs : List Ast) :
    astToBytecode (f + 1) bc (.block exprs) =
      match lowerItems (astToBytecode f) (pushOp bc .scopeOpen) exprs 1 exprs.length with
      | .error s => .error s
      | .ok bc1 => .ok (pushOp bc1 .scopeClose) := rfl

lemma astToBytecode_ifElse_arm (f : Nat) (bc : Bytecode) (c t : Ast)
    (es : List (Ast × Ast)) (e : Option Ast) :
    astToBytecode (f + 1) bc (.ifElse c t es e) =
      match ifElseCore (astToBytecode f) bc c t es e with
      | .error s => .error s
      | .ok (bc1, ps) => .ok (patchAll bc1 ps) := rfl

lemma lowerItems_repTrue (f : Nat) :
    ∀ (n : Nat) (bc : Bytecode) (idx len : Nat),
      lowerItems (astToBytecode (f + 2)) bc (List.replicate n (.statement (.bool true))) idx len
        = .ok { bc with ops := bc.ops ++ stmtTrueOps n } := by
  intro n
  induction n with
  | zero => intro bc idx len; simp [lowerItems, stmtTrueOps]
  | succ n ih =>
    intro bc idx len
    rw [List.replicate_succ]
    simp only [lowerItems, stmtTarget, astToBytecode_stmtTrue, ih, pushOp, stmtTrueOps]
    simp

lemma lowerBlockRepTrue (f n : Nat) (bc : Bytecode) :
    astToBytecode (f + 3) bc (.block (List.replicate n (.statement (.bool true)))) =
      .ok { bc with ops := bc.ops ++ (.scopeOpen :: (stmtTrueOps n ++ [.scopeClose])) } := by
  have h := astToBytecode_block_arm (f + 2) bc (List.replicate n (.statement (.bool true)))
  rw [show f + 3 = f + 2 + 1 from rfl, h, lowerItems_repTrue f n]
  simp [pushOp]

/-- `ifElseCore` with no elif and no else arms, expressed through the
intermediate results of the two recursive calls. -/
lemma ifElseCore_noElse (low : Bytecode → Ast → Except String Bytecode)
    (bc0 bc1 bc3 : Bytecode) (c t : Ast)
    (hc : low bc0 c = .ok bc1)
    (ht : low (pushOp bc1 (.jumpFalse 1)) t = .ok bc3) :
    ifElseCore low bc0 c t [] none =
      .ok (setOp bc3 bc1.ops.length
        (.jumpFalse (toI16 ((bc3.ops.length : Int) - (bc1.ops.length : Int) + 1))), []) := by
  have hidx : (pushOp bc1 (.jumpFalse 1)).ops.length - 1 = bc1.ops.length := by
    simp [pushOp]
  unfold ifElseCore
  rw [hc]
  simp only [ht, hidx, lowerElifs, Option.isSome_none]

/-- Shared computation: lowering `bigAstN n` from an empty buffer succeeds
and patches the then-arm `JumpFalse` to the i16-wrapped offset `2n + 4`. -/
lemma lowerBigAstN (f n : Nat) :
    astToBytecode (f + 4) { constants := [], ops := [] } (bigAstN n) = .ok (c4Bc n) := by
  rw [show f + 4 = f + 3 + 1 from rfl, bigAstN,
    astToBytecode_ifElse_arm (f + 3) { constants := [], ops := [] } _ _ [] none]
  have hcond : astToBytecode (f + 3) { constants := [], ops := [] } (.bool false) =
      .ok { constants := [], ops := [.ofalse] } := rfl
  have hthen : astToBytecode (f + 3)
      (pushOp { constants := [], ops := [.ofalse] } (.jumpFalse 1))
      (.block (List.replicate n (.statement (.bool true)))) =
      .ok { constants := [],
            ops := .ofalse :: .jumpFalse 1 :: .scopeOpen :: (stmtTrueOps n ++ [.scopeClose]) } := by
    have h := lowerBlockRepTrue f n { constants := [], ops := [.ofalse, .jumpFalse 1] }
    simpa [pushOp] using h
  rw [ifElseCore_noElse (astToBytecode (f + 3)) _ _ _ _ _ hcond hthen]
  have hlen : (ByteOp.ofalse :: .jumpFalse 1 :: .scopeOpen ::
      (stmtTrueOps n ++ [ByteOp.scopeClose])).length = 2 * n + 4 := by
    simp [stmtTrueOps_length]
  have harith : (((2 * n + 4 : Nat) : Int)) - ((1 : Nat) : Int) + 1 = 2 * (n : Int) + 4 := by
    push_cast; ring
  simp only [setOp, patchAll, patchGo, hlen]
  norm_num [List.set, c4Bc, harith]

/-- C4, counterexample: at `n = 16382` the true `len - idx + 1` offset is
`2n + 4 = 32768`, one past `i16::MAX`; lowering nevertheless succeeds and
the patched op is `JumpFalse(-32768)`, the two's-complement truncation — no
error is returned. -/
theorem c4_counterexample :
    astToBytecode 10 { constants := [], ops := [] } (bigAstN 16382) = .ok (c4Bc 16382)
    ∧ (c4Bc 16382).ops.get? 1 = some (.jumpFalse (-32768))
    ∧ (32767 : Int) < 2 * (16382 : Int) + 4
    ∧ toI16 (2 * (16382 : Int) + 4) = -32768 := by
  refine ⟨lowerBigAstN 6 16382, ?_, by decide, by decide⟩
  show some (ByteOp.jumpFalse (toI16 (2 * (16382 : Int) + 4))) = _
  norm_num [toI16]

/-- C4, amended: the lowerer never bound-checks a jump offset.  The
`len - idx` arithmetic is performed exactly (in `isize`) and then cast to
i16 with two's-complement wrapping: for every then-arm size `n`, lowering
`bigAstN n` succeeds and emits `JumpFalse(toI16 (2n + 4))` — the wrapped
offset, not an error, even when `2n + 4` exceeds `i16::MAX`. -/
theorem c4_amended (f n : Nat) :
    astToBytecode (f + 4) { constants := [], ops := [] } (bigAstN n) = .ok (c4Bc n)
    ∧ (c4Bc n).ops.get? 1 = some (.jumpFalse (toI16 (2 * (n : Int) + 4))) :=
  ⟨lowerBigAstN f n, rfl⟩

/-! ## C5 -/

/-- The ops `pushBinOp` appends for each operator. -/
def binOpOps : BinOp → List ByteOp
  | .bAdd => [.add]
  | .bSubtract => [.sub]
  | .bMultiply => [.mul]
  | .bDivide => [.div]
  | .bLess => [.less]
  | .bLessEqual => [.greater, .onot]
  | .bGreater => [.greater]
  | .bGreaterEqual => [.less, .onot]
  | .bEquals => [.equal]
  | .bAssign => []

lemma pushBinOp_ops (bc : Bytecode) (op : BinOp) :
    (pushBinOp bc op).ops = bc.ops ++ binOpOps op := by
  cases op <;> simp [pushBinOp, binOpOps]

lemma pushBinOp_constants (bc : Bytecode) (op : BinOp) :
    (pushBinOp bc op).constants = bc.constants := by
  cases op <;> rfl

/-- A lowering function only ever appends to the op and constant buffers
(all its internal back-patches land in the region it created itself). -/
def OnlyAppends (low : Bytecode → Ast → Except String Bytecode) : Prop :=
  ∀ bc a bc', low bc a = .ok bc' →
    (∃ tl, bc'.ops = bc.ops ++ tl) ∧ (∃ tc, bc'.constants = bc.constants ++ tc)

lemma patchGo_constants (L : Int) :
    ∀ (ps : List Nat) (bc : Bytecode), (patchGo L bc ps).constants = bc.constants := by
  intro ps
  induction ps with
  | nil => intro bc; rfl
  | cons p ps ih => intro bc; simp [patchGo, ih, setOp]

lemma patchGo_length (L : Int) :
    ∀ (ps : List Nat) (bc : Bytecode), (patchGo L bc ps).ops.length = bc.ops.length := by
  intro ps
  induction ps with
  | nil => intro bc; rfl
  | cons p ps ih => intro bc; simp [patchGo, ih, setOp, List.length_set]

lemma patchGo_get_not_mem (L : Int) :
    ∀ (ps : List Nat) (bc : Bytecode) (p : Nat), p ∉ ps →
      (patchGo L bc ps).ops[p]? = bc.ops[p]? := by
  intro ps
  induction ps with
  | nil => intro bc p _; rfl
  | cons q ps ih =>
    intro bc p hp
    have hq : q ≠ p := fun h => hp (h ▸ List.mem_cons_self q ps)
    have hps : p ∉ ps := fun h => hp (List.mem_cons_of_mem q h)
    simp only [patchGo]
    rw [ih _ p hps]
    simp [setOp, List.getElem?_set_ne hq]

lemma patchGo_get_mem (L : Int) :
    ∀ (ps : List Nat) (bc : Bytecode) (p : Nat), p ∈ ps → p < bc.ops.length →
      (patchGo L bc ps).ops[p]? = some (.jump (toI16 (L - p))) := by
  intro ps
  induction ps with
  | nil => intro bc p hmem; exact absurd hmem (List.not_mem_nil p)
  | cons q ps ih =>
    intro bc p hmem hlt
    by_cases hps : p ∈ ps
    · have : p < (setOp bc q (.jump (toI16 (L - q)))).ops.length := by
        simpa [setOp, List.length_set] using hlt
      simpa [patchGo] using ih _ p hps this
    · have hq : q = p := by
        rcases List.mem_cons.mp hmem with h | h
        · exact h.symm
        · exact absurd h hps
      subst hq
      simp only [patchGo]
      rw [patchGo_get_not_mem L ps _ q hps]
      simp [setOp, List.getElem?_set_self hlt]

lemma patchGo_prefix (L : Int) :
    ∀ (ps : List Nat) (bc : Bytecode) (pre : List ByteOp),
      (∃ tl, bc.ops = pre ++ tl) → (∀ p ∈ ps, pre.length ≤ p) →
      ∃ tl, (patchGo L bc ps).ops = pre ++ tl := by
  intro ps
  induction ps with
  | nil => intro bc pre hpre _; exact hpre
  | cons q ps ih =>
    intro bc pre hpre hge
    obtain ⟨tl, htl⟩ := hpre
    refine ih _ pre ⟨tl.set (q - pre.length) (.jump (toI16 (L - q))), ?_⟩
      (fun p hp => hge p (List.mem_cons_of_mem q hp))
    simp only [setOp, htl]
    exact List.set_append_right _ _ (hge q (List.mem_cons_self q ps))

lemma lowerItems_appends (low : Bytecode → Ast → Except String Bytecode)
    (hl : OnlyAppends low) :
    ∀ (items : List Ast) (bc : Bytecode) (idx len : Nat) (bc' : Bytecode),
      lowerItems low bc items idx len = .ok bc' →
      (∃ tl, bc'.ops = bc.ops ++ tl) ∧ (∃ tc, bc'.constants = bc.constants ++ tc) := by
  intro items
  induction items with
  | nil =>
    intro bc idx len bc' h
    simp only [lowerItems, Except.ok.injEq] at h
    subst h
    exact ⟨⟨[], by simp⟩, ⟨[], by simp⟩⟩
  | cons e rest ih =>
    intro bc idx len bc' h
    cases e
    case statement expr =>
      simp only [lowerItems] at h
      split at h
      · exact absurd h (by simp)
      · rename_i bc1 heq
        obtain ⟨⟨t1, ht1⟩, ⟨c1, hc1⟩⟩ := hl _ _ _ heq
        obtain ⟨⟨t2, ht2⟩, ⟨c2, hc2⟩⟩ := ih _ _ _ _ h
        exact ⟨⟨t1 ++ t2, by rw [ht2, ht1, List.append_assoc]⟩,
               ⟨c1 ++ c2, by rw [hc2, hc1, List.append_assoc]⟩⟩
    all_goals
      simp only [lowerItems] at h
      split at h
      · exact absurd h (by simp)
      · split at h
        · exact absurd h (by simp)
        · rename_i bc1 heq
          obtain ⟨⟨t1, ht1⟩, ⟨c1, hc1⟩⟩ := hl _ _ _ heq
          obtain ⟨⟨t2, ht2⟩, ⟨c2, hc2⟩⟩ := ih _ _ _ _ h
          refine ⟨⟨t1 ++ [.oret] ++ t2, ?_⟩, ⟨c1 ++ c2, ?_⟩⟩
          · rw [ht2]; simp [pushOp, ht1]
          · rw [hc2]; simp [pushOp, hc1, List.append_assoc]

lemma lowerElifs_spec (low : Bytecode → Ast → Except String Bytecode)
    (hl : OnlyAppends low) :
    ∀ (elifs : List (Ast × Ast)) (hasElse : Bool) (bc : Bytecode) (ps : List Nat)
      (bc' : Bytecode) (ps' : List Nat),
      lowerElifs low hasElse bc elifs ps = .ok (bc', ps') →
      (∃ tl, bc'.ops = bc.ops ++ tl) ∧ (∃ tc, bc'.constants = bc.constants ++ tc)
      ∧ ∃ extra, ps' = ps ++ extra
          ∧ extra.length = (if hasElse then elifs.length else 0)
          ∧ ∀ p ∈ extra, bc.ops.length ≤ p ∧ p < bc'.ops.length
              ∧ bc'.ops[p]? = some (.jump 1) := by
  intro elifs
  induction elifs with
  | nil =>
    intro hasElse bc ps bc' ps' h
    simp only [lowerElifs, Except.ok.injEq, Prod.mk.injEq] at h
    obtain ⟨h1, h2⟩ := h
    subst h1; subst h2
    exact ⟨⟨[], by simp⟩, ⟨[], by simp⟩, ⟨[], by simp, by simp, by simp⟩⟩
  | cons ce rest ih =>
    intro hasElse bc ps bc' ps' h
    obtain ⟨cond, expr⟩ := ce
    simp only [lowerElifs] at h
    split at h
    · exact absurd h (by simp)
    · rename_i bc1 heq1
      split at h
      · exact absurd h (by simp)
      · rename_i bc3 heq2
        obtain ⟨⟨t1, ht1⟩, ⟨c1, hc1⟩⟩ := hl _ _ _ heq1
        obtain ⟨⟨t2, ht2⟩, ⟨c2, hc2⟩⟩ := hl _ _ _ heq2
        have hops3 : bc3.ops = bc.ops ++ (t1 ++ .jumpFalse 1 :: t2) := by
          rw [ht2]; simp [pushOp, ht1]
        have hcs3 : bc3.constants = bc.constants ++ (c1 ++ c2) := by
          rw [hc2]; simp [pushOp, hc1]
        have hidx : (pushOp bc1 (.jumpFalse 1)).ops.length - 1 = bc1.ops.length := by
          simp [pushOp]
        have hidxge : bc.ops.length ≤ bc1.ops.length := by rw [ht1]; simp
        rw [hidx] at h
        set v := ByteOp.jumpFalse (toI16 ((bc3.ops.length : Int) - (bc1.ops.length : Int) + 1)) with hv
        have hops4 : (setOp bc3 bc1.ops.length v).ops =
            bc.ops ++ (t1 ++ .jumpFalse 1 :: t2).set (bc1.ops.length - bc.ops.length) v := by
          simp only [setOp, hops3]
          exact List.set_append_right _ _ (by omega)
        have hlen4 : (setOp bc3 bc1.ops.length v).ops.length = bc3.ops.length := by
          simp [setOp, List.length_set]
        cases hasElse with
        | false =>
          simp only [if_neg (by simp : ¬ (false = true))] at h
          obtain ⟨⟨t5, ht5⟩, ⟨c5, hc5⟩, ⟨extra, hex, hlenx, hprops⟩⟩ := ih false _ _ _ _ h
          refine ⟨⟨_, by rw [ht5, hops4, List.append_assoc]⟩,
                  ⟨_, by rw [hc5]; simp only [setOp]; rw [hcs3, List.append_assoc]⟩,
                  ⟨extra, hex, by simpa using hlenx, ?_⟩⟩
          intro p hp
          obtain ⟨hge, hlt, hget⟩ := hprops p hp
          refine ⟨le_trans ?_ hge, hlt, hget⟩
          rw [hops4]; simp
        | true =>
          simp only [if_pos rfl] at h
          obtain ⟨⟨t5, ht5⟩, ⟨c5, hc5⟩, ⟨extra, hex, hlenx, hprops⟩⟩ := ih true _ _ _ _ h
          have hops5 : (pushOp (setOp bc3 bc1.ops.length v) (.jump 1)).ops =
              (setOp bc3 bc1.ops.length v).ops ++ [.jump 1] := by simp [pushOp]
          have hqge : bc.ops.length ≤ (setOp bc3 bc1.ops.length v).ops.length := by
            rw [hops4]; simp
          refine ⟨⟨_, by rw [ht5, hops5, hops4, List.append_assoc, List.append_assoc]⟩,
                  ⟨_, by rw [hc5]; simp only [pushOp_constants, setOp_constants]
                         rw [hcs3, List.append_assoc]⟩,
                  ⟨(setOp bc3 bc1.ops.length v).ops.length :: extra,
                    by rw [hex]; simp, by simpa using hlenx, ?_⟩⟩
          intro p hp
          rcases List.mem_cons.mp hp with hpq | hpx
          · subst hpq
            have hlt5 : (setOp bc3 bc1.ops.length v).ops.length <
                (pushOp (setOp bc3 bc1.ops.length v) (.jump 1)).ops.length := by
              simp [pushOp]
            refine ⟨hqge, ?_, ?_⟩
            · rw [ht5]; simp only [List.length_append]; omega
            · rw [ht5, List.getElem?_append_left hlt5, hops5,
                List.getElem?_concat_length]
          · obtain ⟨hge, hlt, hget⟩ := hprops p hpx
            refine ⟨le_trans ?_ hge, hlt, hget⟩
            rw [hops5, hops4]; simp

lemma ifElseCore_spec (low : Bytecode → Ast → Except String Bytecode)
    (hl : OnlyAppends low) (bc : Bytecode) (c t : Ast) (elifs : List (Ast × Ast))
    (elseexpr : Option Ast) (bc' : Bytecode) (ps : List Nat)
    (h : ifElseCore low bc c t elifs elseexpr = .ok (bc', ps)) :
    (∃ tl, bc'.ops = bc.ops ++ tl) ∧ (∃ tc, bc'.constants = bc.constants ++ tc)
    ∧ ps.length = (if elseexpr.isSome then elifs.length + 1 else 0)
    ∧ ∀ p ∈ ps, bc.ops.length ≤ p ∧ p < bc'.ops.length ∧ bc'.ops[p]? = some (.jump 1) := by
  simp only [ifElseCore] at h
  split at h
  · exact absurd h (by simp)
  · rename_i bc1 heq1
    split at h
    · exact absurd h (by simp)
    · rename_i bc3 heq2
      obtain ⟨⟨t1, ht1⟩, ⟨c1, hc1⟩⟩ := hl _ _ _ heq1
      obtain ⟨⟨t2, ht2⟩, ⟨c2, hc2⟩⟩ := hl _ _ _ heq2
      have hops3 : bc3.ops = bc.ops ++ (t1 ++ .jumpFalse 1 :: t2) := by
        rw [ht2]; simp [pushOp, ht1]
      have hcs3 : bc3.constants = bc.constants ++ (c1 ++ c2) := by
        rw [hc2]; simp [pushOp, hc1]
      have hidx : (pushOp bc1 (.jumpFalse 1)).ops.length - 1 = bc1.ops.length := by
        simp [pushOp]
      have hidxge : bc.ops.length ≤ bc1.ops.length := by rw [ht1]; simp
      rw [hidx] at h
      set v := ByteOp.jumpFalse (toI16 ((bc3.ops.length : Int) - (bc1.ops.length : Int) + 1)) with hv
      set bc4 := setOp bc3 bc1.ops.length v with hbc4
      have hops4 : bc4.ops =
          bc.ops ++ (t1 ++ .jumpFalse 1 :: t2).set (bc1.ops.length - bc.ops.length) v := by
        simp only [hbc4, setOp, hops3]
        exact List.set_append_right _ _ (by omega)
      have hcs4 : bc4.constants = bc.constants ++ (c1 ++ c2) := by
        simp only [hbc4, setOp_constants]; exact hcs3
      cases elseexpr with
      | none =>
        simp only [Option.isSome_none] at h
        split at h
        · exact absurd h (by simp)
        · rename_i bc5 ps5 hElifs
          obtain ⟨⟨t5, ht5⟩, ⟨c5, hc5⟩, ⟨extra, hex, hlenx, hprops⟩⟩ :=
            lowerElifs_spec low hl elifs false bc4 [] bc5 ps5 hElifs
          simp only [Except.ok.injEq, Prod.mk.injEq] at h
          obtain ⟨hbc', hps⟩ := h
          subst hbc'; subst hps
          simp only [List.nil_append] at hex
          subst hex
          refine ⟨⟨_, by rw [ht5, hops4, List.append_assoc]⟩,
                  ⟨_, by rw [hc5, hcs4, List.append_assoc]⟩,
                  by simpa using hlenx, ?_⟩
          intro p hp
          obtain ⟨hge, hlt, hget⟩ := hprops p hp
          refine ⟨le_trans ?_ hge, hlt, hget⟩
          rw [hops4]; simp
      | some e =>
        simp only [Option.isSome_some] at h
        split at h
        · exact absurd h (by simp)
        · rename_i bc5 ps5 hElifs
          split at h
          · exact absurd h (by simp)
          · rename_i bc6 heq6
            simp only [Except.ok.injEq, Prod.mk.injEq] at h
            obtain ⟨hbc', hps⟩ := h
            subst hbc'; subst hps
            have hops45 : (pushOp bc4 (.jump 1)).ops = bc4.ops ++ [.jump 1] := by
              simp [pushOp]
            obtain ⟨⟨t5, ht5⟩, ⟨c5, hc5⟩, ⟨extra, hex, hlenx, hprops⟩⟩ :=
              lowerElifs_spec low hl elifs true (pushOp bc4 (.jump 1)) [bc4.ops.length]
                bc5 ps5 hElifs
          -- wait: initial ps is [bc4.ops.length]
            obtain ⟨⟨t6, ht6⟩, ⟨c6, hc6⟩⟩ := hl _ _ _ heq6
            subst hex
            have hq : bc.ops.length ≤ bc4.ops.length := by
              rw [hbc4]; simp only [setOp_ops, List.length_set]
              rw [hops3]; simp
            have hops6pre : ∀ m, m < bc5.ops.length → bc6.ops[m]? = bc5.ops[m]? := by
              intro m hm
              rw [ht6, List.getElem?_append_left hm]
            have hq5 : bc4.ops.length < bc5.ops.length := by
              rw [ht5, hops45]
              simp only [List.length_append, List.length_cons, List.length_nil]
              omega
            refine ⟨⟨_, by rw [ht6, ht5, hops45, hops4]
                           simp only [List.append_assoc]; rfl⟩,
                    ⟨_, by rw [hc6, hc5]
                           simp only [pushOp_constants]
                           rw [hcs4]
                           simp only [List.append_assoc]; rfl⟩,
                    by simpa using hlenx, ?_⟩
            intro p hp
            rcases List.mem_cons.mp hp with hpq | hpx
            · subst hpq
              have hlt6 : bc4.ops.length < bc6.ops.length := by
                rw [ht6]; simp only [List.length_append]; omega
              refine ⟨hq, hlt6, ?_⟩
              rw [hops6pre _ hq5, ht5,
                List.getElem?_append_left (by rw [hops45]; simp), hops45,
                List.getElem?_concat_length]
            · obtain ⟨hge, hlt, hget⟩ := hprops p hpx
              refine ⟨?_, ?_, ?_⟩
              · refine le_trans ?_ hge
                rw [hops45, hops4]; simp
              · rw [ht6]; simp only [List.length_append]; omega
              · rw [hops6pre _ hlt]; exact hget

lemma set_push_prefix (bc3 : Bytecode) (pre t : List ByteOp) (i : Nat) (o v : ByteOp)
    (h3 : bc3.ops = pre ++ t) (hi : pre.length ≤ i) :
    ∃ tl, (setOp (pushOp bc3 o) i v).ops = pre ++ tl :=
  ⟨(t ++ [o]).set (i - pre.length) v, by
    rw [setOp_ops, pushOp_ops, h3, List.append_assoc, List.set_append_right _ _ hi]⟩

lemma astToBytecode_onlyAppends : ∀ f, OnlyAppends (astToBytecode f) := by
  intro f
  induction f with
  | zero => intro bc a bc' h; simp [astToBytecode] at h
  | succ f IH =>
    intro bc a bc' h
    cases a
    case ident s =>
      simp only [astToBytecode, Except.ok.injEq] at h
      subst h
      exact ⟨⟨_, pushOp_ops bc _⟩, ⟨[], by simp⟩⟩
    case num n =>
      simp only [astToBytecode] at h
      split at h
      · simp only [Except.ok.injEq] at h; subst h
        exact ⟨⟨_, pushOp_ops bc _⟩, ⟨[], by simp⟩⟩
      · simp only [Except.ok.injEq] at h; subst h
        exact ⟨⟨_, rfl⟩, ⟨_, rfl⟩⟩
    case str s => simp [astToBytecode] at h
    case bool b =>
      simp only [astToBytecode, Except.ok.injEq] at h
      subst h
      exact ⟨⟨_, pushOp_ops bc _⟩, ⟨[], by simp⟩⟩
    case statement e =>
      simp only [astToBytecode] at h
      split at h
      · exact absurd h (by simp)
      · rename_i bc1 heq
        simp only [Except.ok.injEq] at h; subst h
        obtain ⟨⟨t1, ht1⟩, ⟨c1, hc1⟩⟩ := IH _ _ _ heq
        exact ⟨⟨t1 ++ [.pop], by rw [pushOp_ops, ht1, List.append_assoc]⟩,
               ⟨c1, by rw [pushOp_constants, hc1]⟩⟩
    case binary op l r =>
      cases op
      case bAssign =>
        cases l
        case ident name =>
          simp only [astToBytecode] at h
          split at h
          · exact absurd h (by simp)
          · rename_i bc1 heq
            simp only [Except.ok.injEq] at h; subst h
            obtain ⟨⟨t1, ht1⟩, ⟨c1, hc1⟩⟩ := IH _ _ _ heq
            exact ⟨⟨t1 ++ [.setVar (hashStr name)],
                    by rw [pushOp_ops, ht1, List.append_assoc]⟩,
                   ⟨c1, by rw [pushOp_constants, hc1]⟩⟩
        all_goals simp [astToBytecode] at h
      all_goals
        simp only [astToBytecode] at h
        split at h
        · exact absurd h (by simp)
        · rename_i bc1 heq1
          split at h
          · exact absurd h (by simp)
          · rename_i bc2 heq2
            simp only [Except.ok.injEq] at h; subst h
            obtain ⟨⟨t1, ht1⟩, ⟨c1, hc1⟩⟩ := IH _ _ _ heq1
            obtain ⟨⟨t2, ht2⟩, ⟨c2, hc2⟩⟩ := IH _ _ _ heq2
            exact ⟨⟨_, by rw [pushBinOp_ops, ht2, ht1, List.append_assoc, List.append_assoc]⟩,
                   ⟨_, by rw [pushBinOp_constants, hc2, hc1, List.append_assoc]⟩⟩
    case unary op e =>
      simp only [astToBytecode] at h
      split at h
      · exact absurd h (by simp)
      · rename_i bc1 heq
        simp only [Except.ok.injEq] at h; subst h
        obtain ⟨⟨t1, ht1⟩, ⟨c1, hc1⟩⟩ := IH _ _ _ heq
        exact ⟨⟨_, by rw [pushOp_ops, ht1, List.append_assoc]⟩,
               ⟨c1, by rw [pushOp_constants, hc1]⟩⟩
    case ret e =>
      simp only [astToBytecode] at h
      split at h
      · exact absurd h (by simp)
      · rename_i bc1 heq
        simp only [Except.ok.injEq] at h; subst h
        obtain ⟨⟨t1, ht1⟩, ⟨c1, hc1⟩⟩ := IH _ _ _ heq
        exact ⟨⟨t1 ++ [.oret], by rw [pushOp_ops, ht1, List.append_assoc]⟩,
               ⟨c1, by rw [pushOp_constants, hc1]⟩⟩
    case block exprs =>
      simp only [astToBytecode] at h
      split at h
      · exact absurd h (by simp)
      · rename_i bc1 heq
        simp only [Except.ok.injEq] at h; subst h
        obtain ⟨⟨t1, ht1⟩, ⟨c1, hc1⟩⟩ := lowerItems_appends _ IH _ _ _ _ _ heq
        exact ⟨⟨_, by rw [pushOp_ops, ht1, pushOp_ops, List.append_assoc, List.append_assoc]⟩,
               ⟨_, by rw [pushOp_constants, hc1, pushOp_constants]⟩⟩
    case ifElse c t es oe =>
      simp only [astToBytecode] at h
      split at h
      · exact absurd h (by simp)
      · rename_i bc1 ps hcore
        simp only [Except.ok.injEq] at h; subst h
        obtain ⟨⟨t1, ht1⟩, ⟨c1, hc1⟩, hlen, hprops⟩ :=
          ifElseCore_spec _ IH _ _ _ _ _ _ _ hcore
        constructor
        · have hpre := patchGo_prefix (bc1.ops.length : Int) ps bc1 bc.ops ⟨t1, ht1⟩
            (fun p hp => (hprops p hp).1)
          simpa [patchAll] using hpre
        · exact ⟨c1, by simp only [patchAll, patchGo_constants]; exact hc1⟩
    case whileLoop c b =>
      simp only [astToBytecode] at h
      split at h
      · exact absurd h (by simp)
      · rename_i bc1 heq1
        split at h
        · exact absurd h (by simp)
        · rename_i bc3 heq2
          simp only [Except.ok.injEq] at h; subst h
          obtain ⟨⟨t1, ht1⟩, ⟨c1, hc1⟩⟩ := IH _ _ _ heq1
          obtain ⟨⟨t2, ht2⟩, ⟨c2, hc2⟩⟩ := IH _ _ _ heq2
          have hidx : (pushOp bc1 (.jumpFalse 1)).ops.length - 1 = bc1.ops.length := by
            simp [pushOp]
          have hops3 : bc3.ops = bc.ops ++ (t1 ++ .jumpFalse 1 :: t2) := by
            rw [ht2]; simp [pushOp, ht1]
          rw [hidx]
          constructor
          · exact set_push_prefix bc3 bc.ops _ bc1.ops.length _ _ hops3 (by rw [ht1]; simp)
          · refine ⟨c1 ++ c2, ?_⟩
            simp only [setOp_constants, pushOp_constants]
            rw [hc2]
            simp only [pushOp_constants]
            rw [hc1, List.append_assoc]
    case letDecl name mtb init =>
      simp only [astToBytecode] at h
      split at h
      · exact absurd h (by simp)
      · rename_i bc1 heq
        simp only [Except.ok.injEq] at h; subst h
        cases init with
        | some se =>
          simp only [] at heq
          obtain ⟨⟨t1, ht1⟩, ⟨c1, hc1⟩⟩ := IH _ _ _ heq
          exact ⟨⟨t1 ++ [.defVar (hashStr name)],
                  by rw [pushOp_ops, ht1, List.append_assoc]⟩,
                 ⟨c1, by rw [pushOp_constants, hc1]⟩⟩
        | none =>
          simp only [Except.ok.injEq] at heq
          subst heq
          exact ⟨⟨_, pushOp_ops _ _⟩, ⟨[], by simp⟩⟩

/-- Recogniser for the unconditional `Jump` op. -/
def isUncondJump : ByteOp → Bool
  | .jump _ => true
  | _ => false

/-- `if true { true } else if true { true }` — one elif arm, no else. -/
def c5CexBc : Bytecode :=
  { constants := [],
    ops := [.otrue, .jumpFalse 3, .otrue, .otrue, .jumpFalse 3, .otrue] }

/-- C5, counterexample: lowering an `IfElse` that has an elif arm but no
else arm emits no `Jump` placeholder at all (neither after the then-body
nor after the elif body): the loop guards the placeholder on `elseexpr`
being `Some`, not on "any else/elif exists". -/
theorem c5_counterexample :
    bytecodeNew 100 (Ast.ifElse (.bool true) (.bool true) [(.bool true, .bool true)] none)
      = .ok c5CexBc
    ∧ c5CexBc.ops.countP (fun o => isUncondJump o) = 0 :=
  ⟨rfl, rfl⟩

/-- C5, amended: only when an **else** arm exists does the lowerer emit the
placeholder `Jump(1)` after the then-body and after each elif body — one
placeholder per arm, `elifs.length + 1` in total — and the final patch loop
rewrites each remembered index `p` to `Jump(len - p)`, sending every taken
arm to the instruction following the whole construct. -/
theorem c5_amended (f : Nat) (c t e : Ast) (elifs : List (Ast × Ast))
    (bc bc' : Bytecode) (ps : List Nat)
    (h : ifElseCore (astToBytecode f) bc c t elifs (some e) = .ok (bc', ps)) :
    astToBytecode (f + 1) bc (.ifElse c t elifs (some e)) = .ok (patchAll bc' ps)
    ∧ ps.length = elifs.length + 1
    ∧ ∀ p ∈ ps, p < bc'.ops.length ∧ bc'.ops[p]? = some (.jump 1)
        ∧ (patchAll bc' ps).ops[p]? =
            some (.jump (toI16 ((bc'.ops.length : Int) - (p : Int)))) := by
  obtain ⟨_, _, hlen, hprops⟩ :=
    ifElseCore_spec _ (astToBytecode_onlyAppends f) _ _ _ _ _ _ _ h
  refine ⟨by rw [astToBytecode_ifElse_arm, h], by simpa using hlen, ?_⟩
  intro p hp
  obtain ⟨hge, hlt, hget⟩ := hprops p hp
  exact ⟨hlt, hget, by simp only [patchAll]; exact patchGo_get_mem _ ps bc' p hp hlt⟩

/-- Witness for the amended C5 on `if true { true } else { true }`: the
single remembered placeholder at index 3 is patched to `Jump 2`, landing at
index 5, one past the construct. -/
theorem c5_amended_witness :
    ifElseCore (astToBytecode 50) { constants := [], ops := [] } (.bool true) (.bool true)
        [] (some (.bool true)) =
      .ok ({ constants := [], ops := [.otrue, .jumpFalse 3, .otrue, .jump 1, .otrue] }, [3])
    ∧ astToBytecode 51 { constants := [], ops := [] }
        (.ifElse (.bool true) (.bool true) [] (some (.bool true))) =
      .ok (patchAll { constants := [], ops := [.otrue, .jumpFalse 3, .otrue, .jump 1, .otrue] } [3]) :=
  ⟨rfl, (c5_amended 50 (.bool true) (.bool true) (.bool true) [] { constants := [], ops := [] }
    { constants := [], ops := [.otrue, .jumpFalse 3, .otrue, .jump 1, .otrue] } [3] rfl).1⟩

/-! ## C6 -/

/-- C6, counterexample: lowering `if false { 1 }` (no else) patches the
`JumpFalse` to offset 6; executing it from the initial state takes the jump
from `ip = 1` to `ip = 7`, but the op list has only 6 entries (valid indices
0–5), so an executed jump escapes the op list. -/
theorem c6_counterexample :
    bytecodeNew 100 (Ast.ifElse (.bool false) (.block [.num 1]) [] none) = .ok bcC6
    ∧ step bcC6 { ip := 0, stack := [], scopes := [] } =
        .next { ip := 1, stack := [.bool false], scopes := [] }
    ∧ step bcC6 { ip := 1, stack := [.bool false], scopes := [] } =
        .next { ip := 7, stack := [], scopes := [] }
    ∧ bcC6.ops.length = 6 ∧ ¬ (7 < 6) :=
  ⟨rfl, rfl, rfl, rfl, by decide⟩

/-- C6, amended: jumps can land outside the op list, but an escaped
instruction pointer is benign — whenever `ip` is not a valid op index, the
next fetch finds no op and `run` halts returning `Nil`. -/
theorem c6_amended (bc : Bytecode) (st : VmState) (fuel : Nat)
    (h : bc.ops.length ≤ st.ip) :
    runLoop bc (fuel + 1) st = .halt .nil := by
  have hget : bc.ops.get? st.ip = none := List.get?_eq_none.mpr h
  rw [List.get?_eq_getElem?] at hget
  simp [runLoop, step, hget]

/-- Witness for the amended C6 at the escaped state of the counterexample
program. -/
theorem c6_amended_witness :
    bcC6.ops.length ≤ 7
    ∧ runLoop bcC6 1 { ip := 7, stack := [], scopes := [] } = .halt .nil :=
  ⟨by decide, c6_amended bcC6 { ip := 7, stack := [], scopes := [] } 0 (by decide)⟩

/-! ## C7 -/

/-- A variable is found by the innermost-first scope search exactly when
some scope on the stack binds it. -/
lemma varInScopes_ne_none_iff (scopes : List Scope) (id : Nat) :
    varInScopes scopes id ≠ none ↔ ∃ sc ∈ scopes, lookupVar sc id ≠ none := by
  induction scopes with
  | nil => simp [varInScopes]
  | cons s rest ih =>
    cases hl : lookupVar s id with
    | some v =>
      simp only [varInScopes, hl]
      constructor
      · intro _; exact ⟨s, by simp, by simp [hl]⟩
      · intro _; simp
    | none =>
      simp only [varInScopes, hl]
      rw [ih]
      constructor
      · rintro ⟨sc, hsc, hne⟩; exact ⟨sc, by simp [hsc], hne⟩
      · rintro ⟨sc, hsc, hne⟩
        rcases List.mem_cons.mp hsc with h | h
        · subst h; exact absurd hl hne
        · exact ⟨sc, h, hne⟩

/-- C7: executing `DefVar(id)` errors ("arleady defined") iff `id` is bound
in some scope anywhere on the scope stack; otherwise (given the innermost
scope the claim presupposes) it binds `id` in the innermost scope to the
stack top when the stack is non-empty — leaving the stack unchanged — and
to `Nil` when the stack is empty. -/
theorem c7_defvar (bc : Bytecode) (st : VmState) (id : Nat) (s : Scope)
    (rest : List Scope) (hsc : st.scopes = s :: rest)
    (hop : bc.ops.get? st.ip = some (.defVar id)) :
    ((step bc st = .stop (.err (defVarErrMsg id))) ↔ varInScopes st.scopes id ≠ none)
    ∧ (varInScopes st.scopes id ≠ none ↔ ∃ sc ∈ st.scopes, lookupVar sc id ≠ none)
    ∧ (varInScopes st.scopes id = none →
        step bc st = .next { st with scopes := insertVar s id (st.stack.headD .nil) :: rest, ip := st.ip + 1 }) := by
  obtain ⟨ip, stack, scopes⟩ := st
  simp only at hsc hop ⊢
  subst hsc
  have hop' : bc.ops[ip]? = some (.defVar id) := by
    rw [← List.get?_eq_getElem?]; exact hop
  refine ⟨?_, varInScopes_ne_none_iff _ _, ?_⟩
  · cases hv : varInScopes (s :: rest) id with
    | some v => simp [step, hop', hv]
    | none => cases stack <;> simp [step, hop', hv]
  · intro hv
    cases stack <;> simp [step, hop', hv]

/-- Witness for C7 on a one-scope, one-value state: the variable is fresh,
so `DefVar 5` binds it to the stack top `3` and leaves the stack as it was. -/
theorem c7_defvar_witness :
    step { constants := [], ops := [.defVar 5] } { ip := 0, stack := [.number 3], scopes := [[]] } =
      .next { ip := 1, stack := [.number 3], scopes := [[(5, Value.number 3)]] } :=
  (c7_defvar { constants := [], ops := [.defVar 5] }
    { ip := 0, stack := [.number 3], scopes := [[]] } 5 [] [] rfl rfl).2.2 (by decide)

/-! ## C8 -/

/-- C8: the pipeline on `if false { 1 } else if true { 2 } else { 3 }`
halts with `Number(2.0)`; the patched `JumpFalse 6` taken at `ip = 1` lands
on `ip = 7`, the `True` op of the elif condition. -/
theorem c8_pipeline :
    parseTokens 100 toksC8 = .ok astC8
    ∧ bytecodeNew 100 astC8 = .ok bcC8
    ∧ step bcC8 { ip := 1, stack := [.bool false], scopes := [] } =
        .next { ip := 7, stack := [], scopes := [] }
    ∧ bcC8.ops.get? 7 = some .otrue
    ∧ pipeline 100 100 100 toksC8 = .ok (.halt (.number 2)) :=
  ⟨rfl, rfl, rfl, rfl, rfl⟩

/-! ## C9 -/

/-- C9: the pipeline is deterministic — parsing-then-lowering the same
token stream twice gives the same bytecode (constants, ops, hashed ids
alike), and running the same bytecode on two fresh VMs gives the same
outcome.  Every stage of the embedding is a pure function of its input; the
source has no nondeterminism (the name hash is the unkeyed `DefaultHasher`,
and scope maps are only read through keyed lookups). -/
theorem c9_deterministic (pfuel lfuel vfuel : Nat) (toks : List Token)
    (bc : Bytecode) (r1 r2 : Except String Bytecode) (o1 o2 : VmOutcome)
    (h1 : parseAndLower pfuel lfuel toks = r1) (h2 : parseAndLower pfuel lfuel toks = r2)
    (h3 : runVm vfuel bc = o1) (h4 : runVm vfuel bc = o2) :
    r1 = r2 ∧ o1 = o2 :=
  ⟨h1.symm.trans h2, h3.symm.trans h4⟩

/-- Witness for C9 at the scenario-5 token stream and its bytecode. -/
theorem c9_deterministic_witness :
    (Except.ok bcC8 : Except String Bytecode) = .ok bcC8
    ∧ VmOutcome.halt (.number 2) = VmOutcome.halt (.number 2) :=
  c9_deterministic 100 100 100 toksC8 bcC8 (.ok bcC8) (.ok bcC8)
    (.halt (.number 2)) (.halt (.number 2)) rfl rfl rfl rfl

/-! ## C10 -/

/-- C10, counterexample: a top-level `let x = 1` lowers to
`[Load 0, DefVar(hash "x")]` with no `ScopeOpen`, and running that bytecode
executes `DefVar` with an empty scope stack: `scopes.last_mut().unwrap()`
panics (modelled as `crash`). -/
theorem c10_counterexample :
    bytecodeNew 100 astC10 =
      .ok { constants := [.number 1], ops := [.load 0, .defVar (hashStr "x")] }
    ∧ runVm 50 { constants := [.number 1], ops := [.load 0, .defVar (hashStr "x")] } = .crash :=
  ⟨rfl, rfl⟩

/-- C10, amended: whenever `DefVar` executes with at least one open scope,
its access to the innermost scope cannot panic. -/
theorem c10_amended (bc : Bytecode) (st : VmState) (id : Nat)
    (hop : bc.ops.get? st.ip = some (.defVar id)) (hsc : st.scopes ≠ []) :
    step bc st ≠ .stop .crash := by
  obtain ⟨ip, stack, scopes⟩ := st
  simp only at hop hsc ⊢
  have hop' : bc.ops[ip]? = some (.defVar id) := by
    rw [← List.get?_eq_getElem?]; exact hop
  cases scopes with
  | nil => exact absurd rfl hsc
  | cons s rest =>
    cases hv : varInScopes (s :: rest) id with
    | some v => simp [step, hop', hv]
    | none => cases stack <;> simp [step, hop', hv]

/-- Witness for the amended C10: with one open scope, `DefVar 5` does not
crash. -/
theorem c10_amended_witness :
    (Bytecode.mk [] [.defVar 5]).ops.get? 0 = some (.defVar 5)
    ∧ ([[]] : List Scope) ≠ []
    ∧ step { constants := [], ops := [.defVar 5] } { ip := 0, stack := [], scopes := [[]] } ≠
        .stop .crash :=
  ⟨rfl, by decide,
    c10_amended { constants := [], ops := [.defVar 5] } { ip := 0, stack := [], scopes := [[]] } 5
      rfl (by decide)⟩

end Graviton
